import Mathlib

/-!
Verification of the kallisto mtx-to-h5ad assembly script
(modules/local/templates/mtx_to_h5ad_kallisto.py).

The script loads per-category sparse count matrices (2 categories for the
lamanno workflow, 3 for nac), computes the union of cell barcodes, zero-fills
the barcodes missing from each category, reindexes every category to the
union, asserts equal feature axes, sums the aligned matrices into a primary
matrix while keeping each aligned category as a layer, and finally sanitizes
gene identifiers (version-suffix stripping plus uniquification).

Matrices are embedded densely as lists of rows of integers; an AnnData value
carries its row identifiers (obs_names), column identifiers (var_names) and
matrix body X.  The CPython enumeration order of a set is not pinned down by
the language, so every place the script writes list(set(...)) is modelled by
quantifying over admissible enumerations (isUnionEnum) and, for concrete
evaluation, by one canonical enumeration (unionEnum / missingOf).
-/

/-- Dense embedding of an AnnData object: row identifiers, column
identifiers, and the matrix body as a list of rows. -/
structure AnnData where
  obs_names : List String
  var_names : List String
  X : List (List Int)
deriving DecidableEq, Repr

/-- Well-formedness of an AnnData: the matrix has one row per obs name and
every row has one entry per var name. -/
def AnnData.WF (a : AnnData) : Prop :=
  a.X.length = a.obs_names.length ∧ ∀ row ∈ a.X, row.length = a.var_names.length

/-- Sparse matrix file content: header dimensions plus (row, col, value)
entries, as in a MatrixMarket coordinate file. -/
structure Mtx where
  nrows : Nat
  ncols : Nat
  entries : List (Nat × Nat × Int)
deriving DecidableEq, Repr

/-- Value of the sparse matrix at one coordinate; duplicate coordinate
entries are summed, as scipy does when converting to csr. -/
def mtxEntryVal (m : Mtx) (i j : Nat) : Int :=
  (m.entries.filter (fun e => e.1 == i && e.2.1 == j)).foldl (fun acc e => acc + e.2.2) 0

/-- Dense body of the sparse matrix, row-major. -/
def mtxDense (m : Mtx) : List (List Int) :=
  (List.range m.nrows).map fun i => (List.range m.ncols).map fun j => mtxEntryVal m i j

/-- Embedding of the loader _mtx_to_adata: read the matrix, then assign the
barcode file column as obs_names and the feature file column as var_names,
in file order.  AnnData raises a fatal error when an assigned index length
disagrees with the corresponding matrix dimension; obs_names is assigned
first, so its mismatch is reported first. -/
def mtx_to_adata (m : Mtx) (barcodes features : List String) : Except String AnnData :=
  if barcodes.length = m.nrows then
    if features.length = m.ncols then
      Except.ok ⟨barcodes, features, mtxDense m⟩
    else Except.error "Length of passed value for var_names does not match n_vars"
  else Except.error "Length of passed value for obs_names does not match n_obs"

/-- Entry of a dense matrix body at (r, c), defaulting to 0 outside. -/
def matEntry (X : List (List Int)) (r c : Nat) : Int :=
  (X.getD r []).getD c 0

/-- Elementwise sum of two matrix bodies of equal shape (numpy + on two
aligned sparse matrices). -/
def matAdd (A B : List (List Int)) : List (List Int) :=
  List.zipWith (fun ra rb => List.zipWith (fun x y => x + y) ra rb) A B

theorem mtx_to_adata_ok_shape (m : Mtx) (bs fs : List String) (a : AnnData)
    (h : mtx_to_adata m bs fs = Except.ok a) :
    a.obs_names = bs ∧ a.var_names = fs ∧ bs.length = m.nrows ∧ fs.length = m.ncols := by
  unfold mtx_to_adata at h
  by_cases h1 : bs.length = m.nrows
  · by_cases h2 : fs.length = m.ncols
    · rw [if_pos h1, if_pos h2] at h
      cases h
      exact ⟨rfl, rfl, h1, h2⟩
    · simp [h1, h2] at h
  · simp [h1] at h

theorem mtx_to_adata_isOk (m : Mtx) (bs fs : List String) :
    (mtx_to_adata m bs fs).isOk = true ↔ (bs.length = m.nrows ∧ fs.length = m.ncols) := by
  unfold mtx_to_adata
  by_cases h1 : bs.length = m.nrows
  · by_cases h2 : fs.length = m.ncols
    · simp [h1, h2, Except.isOk, Except.toBool]
    · simp [h1, h2, Except.isOk, Except.toBool]
  · simp [h1, Except.isOk, Except.toBool]

/-- C8: loading a category fails fatally exactly when the barcode side table
count differs from the matrix row count or the feature side table count
differs from the matrix column count; on success the identifier sequences
are taken from the side tables in file order. -/
theorem load_shape_check (m : Mtx) (bs fs : List String) :
    ((mtx_to_adata m bs fs).isOk = true ↔ (bs.length = m.nrows ∧ fs.length = m.ncols)) ∧
    (∀ a : AnnData, mtx_to_adata m bs fs = Except.ok a →
      a.obs_names = bs ∧ a.var_names = fs) := by
  refine ⟨mtx_to_adata_isOk m bs fs, fun a h => ?_⟩
  have := mtx_to_adata_ok_shape m bs fs a h
  exact ⟨this.1, this.2.1⟩

theorem load_shape_check_witness :
    (mtx_to_adata ⟨2, 1, [(0, 0, 5)]⟩ ["b1", "b2"] ["g1"]).isOk = true ∧
    (⟨["b1", "b2"], ["g1"], mtxDense ⟨2, 1, [(0, 0, 5)]⟩⟩ : AnnData).obs_names = ["b1", "b2"] ∧
    (⟨["b1", "b2"], ["g1"], mtxDense ⟨2, 1, [(0, 0, 5)]⟩⟩ : AnnData).var_names = ["g1"] :=
  ⟨(load_shape_check ⟨2, 1, [(0, 0, 5)]⟩ ["b1", "b2"] ["g1"]).1.mpr (by decide),
   (load_shape_check ⟨2, 1, [(0, 0, 5)]⟩ ["b1", "b2"] ["g1"]).2 _ rfl⟩

/-- Admissible enumeration of the union of several barcode lists: the script
computes list(set(p1) | set(p2) | ...), whose element set is the union and
whose elements are pairwise distinct, but whose order CPython leaves to the
hash-table iteration of the moment.  Any list satisfying this predicate is a
possible value of all_barcodes. -/
def isUnionEnum (all : List String) (parts : List (List String)) : Prop :=
  all.Nodup ∧ (∀ p ∈ parts, ∀ b ∈ p, b ∈ all) ∧ (∀ b ∈ all, ∃ p ∈ parts, b ∈ p)

instance (all : List String) (parts : List (List String)) :
    Decidable (isUnionEnum all parts) := by
  unfold isUnionEnum; infer_instance

/-- Canonical concrete enumeration of the barcode union, used to evaluate
the pipeline on concrete inputs (first-seen order). -/
def unionEnum (parts : List (List String)) : List String :=
  parts.flatten.dedup

/-- Enumeration of list(set(all_barcodes) - set(x.obs_names)); the order of
this difference is again left open by CPython, but every downstream use is
insensitive to it (the complement rows are all zero and are reindexed by
label), so the embedding fixes the filter order of all_barcodes. -/
def missingOf (all : List String) (x : AnnData) : List String :=
  all.filter (fun b => ¬ x.obs_names.contains b)

/-- Embedding of the complement construction: AnnData with csr_matrix of
zeros of shape (missing count, category column count), obs index the missing
barcodes and var copied from the category. -/
def adMissing (missing : List String) (x : AnnData) : AnnData :=
  ⟨missing, x.var_names, List.replicate missing.length (List.replicate x.var_names.length 0)⟩

/-- Embedding of concat_ad([a, b], join outer) as used by the script: the
second argument is always the complement table of the first, so both share
one var_names sequence and the outer join on columns reduces to row-wise
concatenation with unchanged columns. -/
def concatRows (a b : AnnData) : AnnData :=
  ⟨a.obs_names ++ b.obs_names, a.var_names, a.X ++ b.X⟩

/-- Row of an AnnData selected by barcode label, as pandas label indexing
does on a unique index. -/
def lookupRow (a : AnnData) (b : String) : List Int :=
  a.X.getD (a.obs_names.indexOf b) []

/-- Embedding of label reindexing adata[order, :]: rows are rearranged to
follow the given label order. -/
def reindexRows (a : AnnData) (order : List String) : AnnData :=
  ⟨order, a.var_names, order.map (lookupRow a)⟩

/-- One category aligned to the barcode union: the original table
concatenated with its zero complement, then reindexed to all_barcodes. -/
def alignCategory (x : AnnData) (all : List String) : AnnData :=
  reindexRows (concatRows x (adMissing (missingOf all x) x)) all

/-- Final assembled object: primary matrix X plus named per-category
layers, with the shared obs and var identifier sequences. -/
structure Assembled where
  obs_names : List String
  var_names : List String
  X : List (List Int)
  layers : List (String × List (List Int))
deriving DecidableEq, Repr

/-- Embedding of the lamanno branch after loading: align both categories to
all_barcodes, assert equal var_names (np.all comparison backing the assert
statement on line 125), then build the AnnData with the elementwise sum as X
and the two aligned matrices as layers. -/
def lamannoAssemble (spliced unspliced : AnnData) (all_barcodes : List String) :
    Except String Assembled :=
  if (alignCategory spliced all_barcodes).var_names =
      (alignCategory unspliced all_barcodes).var_names then
    Except.ok ⟨all_barcodes, (alignCategory spliced all_barcodes).var_names,
      matAdd (alignCategory spliced all_barcodes).X (alignCategory unspliced all_barcodes).X,
      [("unspliced", (alignCategory unspliced all_barcodes).X),
       ("spliced", (alignCategory spliced all_barcodes).X)]⟩
  else Except.error "AssertionError: spliced and unspliced var_names differ"

/-- Embedding of the nac branch after loading: align the three categories,
assert nascent/ambiguous and mature/ambiguous var_names equality (lines
181 and 182), then build the AnnData with the three-way sum as X and the
three aligned matrices as layers. -/
def nacAssemble (nascent ambiguous mature : AnnData) (all_barcodes : List String) :
    Except String Assembled :=
  if (alignCategory nascent all_barcodes).var_names =
      (alignCategory ambiguous all_barcodes).var_names then
    if (alignCategory mature all_barcodes).var_names =
        (alignCategory ambiguous all_barcodes).var_names then
      Except.ok ⟨all_barcodes, (alignCategory nascent all_barcodes).var_names,
        matAdd (matAdd (alignCategory nascent all_barcodes).X
          (alignCategory ambiguous all_barcodes).X) (alignCategory mature all_barcodes).X,
        [("nascent", (alignCategory nascent all_barcodes).X),
         ("ambiguous", (alignCategory ambiguous all_barcodes).X),
         ("mature", (alignCategory mature all_barcodes).X)]⟩
    else Except.error "AssertionError: mature and ambiguous var_names differ"
  else Except.error "AssertionError: nascent and ambiguous var_names differ"

lemma alignCategory_obs (x : AnnData) (all : List String) :
    (alignCategory x all).obs_names = all := rfl

lemma alignCategory_var (x : AnnData) (all : List String) :
    (alignCategory x all).var_names = x.var_names := rfl

lemma alignCategory_X_length (x : AnnData) (all : List String) :
    (alignCategory x all).X.length = all.length := by
  simp [alignCategory, reindexRows]

lemma mem_missingOf (all : List String) (x : AnnData) (b : String) :
    b ∈ missingOf all x ↔ b ∈ all ∧ b ∉ x.obs_names := by
  simp [missingOf, List.mem_filter]

lemma lookupRow_concat_mem (x : AnnData) (ms : List String) (b : String)
    (hWF : x.X.length = x.obs_names.length) (hb : b ∈ x.obs_names) :
    lookupRow (concatRows x (adMissing ms x)) b = x.X.getD (x.obs_names.indexOf b) [] := by
  unfold lookupRow concatRows adMissing
  simp only
  rw [List.indexOf_append_of_mem hb]
  exact List.getD_append _ _ _ _ (hWF ▸ List.indexOf_lt_length.mpr hb)

lemma lookupRow_concat_missing (x : AnnData) (all : List String) (b : String)
    (hWF : x.X.length = x.obs_names.length) (hb : b ∈ all) (hnb : b ∉ x.obs_names) :
    lookupRow (concatRows x (adMissing (missingOf all x) x)) b =
      List.replicate x.var_names.length 0 := by
  have hbm : b ∈ missingOf all x := (mem_missingOf all x b).mpr ⟨hb, hnb⟩
  unfold lookupRow concatRows adMissing
  simp only
  rw [List.indexOf_append_of_not_mem hnb]
  rw [List.getD_append_right _ _ _ _ (by omega)]
  have hidx : x.obs_names.length + (missingOf all x).indexOf b - x.X.length =
      (missingOf all x).indexOf b := by omega
  rw [hidx]
  have hlt : (missingOf all x).indexOf b < (missingOf all x).length :=
    List.indexOf_lt_length.mpr hbm
  rw [List.getD_eq_getElem _ _ (by simpa using hlt)]
  simp

lemma aligned_X_getD (x : AnnData) (all : List String) (r : Nat) (h : r < all.length) :
    (alignCategory x all).X.getD r [] =
      lookupRow (concatRows x (adMissing (missingOf all x) x)) (all.getD r "") := by
  unfold alignCategory reindexRows
  simp only
  rw [List.getD_eq_getElem _ _ (by simpa using h), List.getElem_map,
    List.getD_eq_getElem _ _ h]

lemma aligned_row_length (x : AnnData) (all : List String) (r : Nat)
    (hx : x.WF) (h : r < all.length) :
    ((alignCategory x all).X.getD r []).length = x.var_names.length := by
  rw [aligned_X_getD x all r h]
  set b := all.getD r "" with hb
  by_cases hmem : b ∈ x.obs_names
  · rw [lookupRow_concat_mem x _ b hx.1 hmem]
    have hlt : x.obs_names.indexOf b < x.X.length := hx.1 ▸ List.indexOf_lt_length.mpr hmem
    rw [List.getD_eq_getElem _ _ hlt]
    exact hx.2 _ (List.getElem_mem hlt)
  · have hball : b ∈ all := by
      rw [hb, List.getD_eq_getElem _ _ h]
      exact List.getElem_mem h
    rw [lookupRow_concat_missing x all b hx.1 hball hmem]
    simp

lemma matAdd_entry (A B : List (List Int)) (r c : Nat)
    (hrA : r < A.length) (hrB : r < B.length)
    (hcA : c < (A.getD r []).length) (hcB : c < (B.getD r []).length) :
    matEntry (matAdd A B) r c = matEntry A r c + matEntry B r c := by
  unfold matEntry matAdd
  have hr : r < (List.zipWith (fun ra rb => List.zipWith (fun x y => x + y) ra rb) A B).length := by
    rw [List.length_zipWith]; omega
  rw [List.getD_eq_getElem _ _ hr, List.getElem_zipWith]
  rw [List.getD_eq_getElem A _ hrA] at hcA
  rw [List.getD_eq_getElem B _ hrB] at hcB
  have hc : c < (List.zipWith (fun x y : Int => x + y) A[r] B[r]).length := by
    rw [List.length_zipWith]; omega
  rw [List.getD_eq_getElem _ _ hc, List.getElem_zipWith,
    List.getD_eq_getElem A _ hrA, List.getD_eq_getElem B _ hrB,
    List.getD_eq_getElem _ _ hcA, List.getD_eq_getElem _ _ hcB]

/-- C2: after alignment every pair of aligned tables has elementwise equal
row-identifier sequences, and each equals the materialized union sequence
all_barcodes in the same order and length; the assembled output also carries
that same sequence. -/
theorem alignment_invariant (x y : AnnData) (all : List String) :
    (alignCategory x all).obs_names = all ∧
    (alignCategory x all).obs_names = (alignCategory y all).obs_names ∧
    (alignCategory x all).X.length = all.length ∧
    (∀ s u : AnnData, ∀ out : Assembled,
      lamannoAssemble s u all = Except.ok out → out.obs_names = all) ∧
    (∀ n a m : AnnData, ∀ out : Assembled,
      nacAssemble n a m all = Except.ok out → out.obs_names = all) := by
  refine ⟨rfl, rfl, alignCategory_X_length x all, ?_, ?_⟩
  · intro s u out hok
    unfold lamannoAssemble at hok
    by_cases hv : (alignCategory s all).var_names = (alignCategory u all).var_names
    · rw [if_pos hv] at hok
      cases hok
      rfl
    · rw [if_neg hv] at hok
      cases hok
  · intro n a m out hok
    unfold nacAssemble at hok
    by_cases h1 : (alignCategory n all).var_names = (alignCategory a all).var_names
    · rw [if_pos h1] at hok
      by_cases h2 : (alignCategory m all).var_names = (alignCategory a all).var_names
      · rw [if_pos h2] at hok
        cases hok
        rfl
      · rw [if_neg h2] at hok
        cases hok
    · rw [if_neg h1] at hok
      cases hok

theorem alignment_invariant_witness :
    (alignCategory ⟨["x", "y"], ["g"], [[1], [1]]⟩ ["x", "y", "z"]).obs_names = ["x", "y", "z"] ∧
    Assembled.obs_names
        ⟨["x", "y", "z"], ["g"], [[1], [2], [1]],
          [("unspliced", [[0], [1], [1]]), ("spliced", [[1], [1], [0]])]⟩ = ["x", "y", "z"] :=
  ⟨(alignment_invariant ⟨["x", "y"], ["g"], [[1], [1]]⟩ ⟨["y", "z"], ["g"], [[1], [1]]⟩
      ["x", "y", "z"]).1,
   (alignment_invariant ⟨["x", "y"], ["g"], [[1], [1]]⟩ ⟨["y", "z"], ["g"], [[1], [1]]⟩
      ["x", "y", "z"]).2.2.2.1 ⟨["x", "y"], ["g"], [[1], [1]]⟩ ⟨["y", "z"], ["g"], [[1], [1]]⟩
      _ rfl⟩

/-- C3: the canonical materialization of the barcode union contains every
row identifier of every partition, contains nothing outside their set union,
and lists each identifier exactly once; it is an admissible enumeration in
the sense of isUnionEnum. -/
theorem union_completeness (parts : List (List String)) :
    (unionEnum parts).Nodup ∧
    (∀ p ∈ parts, ∀ b ∈ p, b ∈ unionEnum parts) ∧
    (∀ b ∈ unionEnum parts, ∃ p ∈ parts, b ∈ p) ∧
    isUnionEnum (unionEnum parts) parts := by
  have hnd : (unionEnum parts).Nodup := List.nodup_dedup _
  have hsup : ∀ p ∈ parts, ∀ b ∈ p, b ∈ unionEnum parts := by
    intro p hp b hb
    unfold unionEnum
    rw [List.mem_dedup, List.mem_flatten]
    exact ⟨p, hp, hb⟩
  have hsub : ∀ b ∈ unionEnum parts, ∃ p ∈ parts, b ∈ p := by
    intro b hb
    unfold unionEnum at hb
    rw [List.mem_dedup, List.mem_flatten] at hb
    exact hb
  exact ⟨hnd, hsup, hsub, hnd, hsup, hsub⟩

theorem union_completeness_witness :
    "y" ∈ unionEnum [["x", "y"], ["y", "z"]] ∧
    (∃ p ∈ [["x", "y"], ["y", "z"]], "z" ∈ p) :=
  ⟨(union_completeness [["x", "y"], ["y", "z"]]).2.1 ["x", "y"] (by decide) "y" (by decide),
   (union_completeness [["x", "y"], ["y", "z"]]).2.2.1 "z" (by decide)⟩

lemma getD_replicate_self (n c : Nat) (v : Int) : (List.replicate n v).getD c v = v := by
  by_cases h : c < n
  · rw [List.getD_eq_getElem _ _ (by simpa using h)]
    simp
  · rw [List.getD_eq_default _ _ (by simpa using Nat.le_of_not_lt h)]

/-- C4: a barcode present in the union but absent from one category gets an
all-zero row (exact zeros, not missing values) in that aligned category, at
the position the union sequence assigns to it. -/
theorem zero_fill (x : AnnData) (all : List String) (b : String)
    (hx : x.WF) (hb : b ∈ all) (hnb : b ∉ x.obs_names) :
    (alignCategory x all).X.getD (all.indexOf b) [] = List.replicate x.var_names.length 0 ∧
    ∀ c : Nat, matEntry (alignCategory x all).X (all.indexOf b) c = 0 := by
  have hlt : all.indexOf b < all.length := List.indexOf_lt_length.mpr hb
  have hrow : (alignCategory x all).X.getD (all.indexOf b) [] =
      List.replicate x.var_names.length 0 := by
    rw [aligned_X_getD x all _ hlt]
    have hgb : all.getD (all.indexOf b) "" = b := by
      rw [List.getD_eq_getElem _ _ hlt]
      exact List.getElem_indexOf hlt
    rw [hgb]
    exact lookupRow_concat_missing x all b hx.1 hb hnb
  refine ⟨hrow, fun c => ?_⟩
  unfold matEntry
  rw [hrow]
  exact getD_replicate_self _ c 0

theorem zero_fill_witness :
    (alignCategory ⟨["x", "y"], ["g"], [[1], [1]]⟩ ["x", "y", "z"]).X.getD
        (["x", "y", "z"].indexOf "z") [] = List.replicate 1 0 ∧
    matEntry (alignCategory ⟨["x", "y"], ["g"], [[1], [1]]⟩ ["x", "y", "z"]).X
        (["x", "y", "z"].indexOf "z") 0 = 0 :=
  ⟨(zero_fill ⟨["x", "y"], ["g"], [[1], [1]]⟩ ["x", "y", "z"] "z"
      (by constructor <;> decide) (by decide) (by decide)).1,
   (zero_fill ⟨["x", "y"], ["g"], [[1], [1]]⟩ ["x", "y", "z"] "z"
      (by constructor <;> decide) (by decide) (by decide)).2 0⟩

/-- C5: the pipeline succeeds exactly when the asserted column-identifier
sequences agree; success implies all pairs agree (for nac the two asserts
give the third pair by transitivity), and a mismatch yields a fatal error
value, so the sum is never built over mismatched column spaces. -/
theorem column_space_check (s u n a m : AnnData) (all : List String) :
    ((∃ out, lamannoAssemble s u all = Except.ok out) ↔ s.var_names = u.var_names) ∧
    ((∃ out, nacAssemble n a m all = Except.ok out) ↔
      (n.var_names = a.var_names ∧ m.var_names = a.var_names)) ∧
    (∀ out, nacAssemble n a m all = Except.ok out →
      n.var_names = a.var_names ∧ n.var_names = m.var_names ∧ a.var_names = m.var_names) ∧
    (s.var_names ≠ u.var_names → ∃ e, lamannoAssemble s u all = Except.error e) := by
  have hlam : ∀ hv : s.var_names = u.var_names,
      lamannoAssemble s u all = Except.ok ⟨all, s.var_names,
        matAdd (alignCategory s all).X (alignCategory u all).X,
        [("unspliced", (alignCategory u all).X), ("spliced", (alignCategory s all).X)]⟩ := by
    intro hv
    unfold lamannoAssemble
    rw [if_pos (show (alignCategory s all).var_names = (alignCategory u all).var_names from hv)]
    rfl
  constructor
  · constructor
    · rintro ⟨out, hout⟩
      unfold lamannoAssemble at hout
      by_cases hv : (alignCategory s all).var_names = (alignCategory u all).var_names
      · exact hv
      · rw [if_neg hv] at hout
        cases hout
    · intro hv
      exact ⟨_, hlam hv⟩
  constructor
  · constructor
    · rintro ⟨out, hout⟩
      unfold nacAssemble at hout
      by_cases h1 : (alignCategory n all).var_names = (alignCategory a all).var_names
      · by_cases h2 : (alignCategory m all).var_names = (alignCategory a all).var_names
        · exact ⟨h1, h2⟩
        · rw [if_pos h1, if_neg h2] at hout
          cases hout
      · rw [if_neg h1] at hout
        cases hout
    · rintro ⟨h1, h2⟩
      unfold nacAssemble
      rw [if_pos (show (alignCategory n all).var_names = (alignCategory a all).var_names from h1),
        if_pos (show (alignCategory m all).var_names = (alignCategory a all).var_names from h2)]
      exact ⟨_, rfl⟩
  constructor
  · intro out hout
    unfold nacAssemble at hout
    by_cases h1 : (alignCategory n all).var_names = (alignCategory a all).var_names
    · by_cases h2 : (alignCategory m all).var_names = (alignCategory a all).var_names
      · exact ⟨h1, h1.trans h2.symm, h2.symm⟩
      · rw [if_pos h1, if_neg h2] at hout
        cases hout
    · rw [if_neg h1] at hout
      cases hout
  · intro hv
    unfold lamannoAssemble
    rw [if_neg (show ¬ (alignCategory s all).var_names = (alignCategory u all).var_names
      from hv)]
    exact ⟨_, rfl⟩

theorem column_space_check_witness :
    (∃ out, lamannoAssemble ⟨["x"], ["g"], [[1]]⟩ ⟨["x"], ["g"], [[2]]⟩ ["x"] =
      Except.ok out) ∧
    (∃ e, lamannoAssemble ⟨["x"], ["g1"], [[1]]⟩ ⟨["x"], ["g2"], [[2]]⟩ ["x"] =
      Except.error e) :=
  ⟨(column_space_check ⟨["x"], ["g"], [[1]]⟩ ⟨["x"], ["g"], [[2]]⟩
      ⟨["x"], ["g"], [[1]]⟩ ⟨["x"], ["g"], [[1]]⟩ ⟨["x"], ["g"], [[1]]⟩ ["x"]).1.mpr rfl,
   (column_space_check ⟨["x"], ["g1"], [[1]]⟩ ⟨["x"], ["g2"], [[2]]⟩
      ⟨["x"], ["g"], [[1]]⟩ ⟨["x"], ["g"], [[1]]⟩ ⟨["x"], ["g"], [[1]]⟩ ["x"]).2.2.2
      (by decide)⟩

/-- C6: a category whose barcodes already cover the whole union yields an
empty missing list and a complement table that is a valid zero-row table
with the category column space; it still takes part in the row-wise
concatenation, and the pipeline still succeeds on such inputs whenever the
column assert passes. -/
theorem zero_row_complement (x : AnnData) (all : List String)
    (hcov : ∀ b ∈ all, b ∈ x.obs_names) :
    missingOf all x = [] ∧
    (adMissing (missingOf all x) x).X.length = 0 ∧
    (adMissing (missingOf all x) x).obs_names.length = 0 ∧
    (adMissing (missingOf all x) x).var_names = x.var_names ∧
    (adMissing (missingOf all x) x).WF ∧
    concatRows x (adMissing (missingOf all x) x) =
      ⟨x.obs_names ++ [], x.var_names, x.X ++ []⟩ ∧
    (∀ u : AnnData, x.var_names = u.var_names →
      ∃ out, lamannoAssemble x u all = Except.ok out) := by
  have hm : missingOf all x = [] := by
    unfold missingOf
    rw [List.filter_eq_nil_iff]
    intro b hb
    simp [hcov b hb]
  refine ⟨hm, ?_, ?_, rfl, ?_, ?_, ?_⟩
  · simp [adMissing, hm]
  · simp [adMissing, hm]
  · constructor
    · simp [adMissing]
    · intro row hrow
      rw [List.eq_of_mem_replicate hrow]
      simp [adMissing]
  · rw [hm]
    rfl
  · intro u hv
    unfold lamannoAssemble
    rw [if_pos (show (alignCategory x all).var_names = (alignCategory u all).var_names from hv)]
    exact ⟨_, rfl⟩

theorem zero_row_complement_witness :
    missingOf ["y", "x"] ⟨["x", "y"], ["g"], [[1], [2]]⟩ = [] ∧
    (adMissing (missingOf ["y", "x"] ⟨["x", "y"], ["g"], [[1], [2]]⟩)
      ⟨["x", "y"], ["g"], [[1], [2]]⟩).X.length = 0 ∧
    (∃ out, lamannoAssemble ⟨["x", "y"], ["g"], [[1], [2]]⟩ ⟨["x", "y"], ["g"], [[1], [2]]⟩
      ["y", "x"] = Except.ok out) :=
  ⟨(zero_row_complement ⟨["x", "y"], ["g"], [[1], [2]]⟩ ["y", "x"] (by decide)).1,
   (zero_row_complement ⟨["x", "y"], ["g"], [[1], [2]]⟩ ["y", "x"] (by decide)).2.1,
   (zero_row_complement ⟨["x", "y"], ["g"], [[1], [2]]⟩ ["y", "x"] (by decide)).2.2.2.2.2.2
     ⟨["x", "y"], ["g"], [[1], [2]]⟩ rfl⟩

lemma matAdd_row_length (A B : List (List Int)) (r : Nat)
    (hrA : r < A.length) (hrB : r < B.length) :
    ((matAdd A B).getD r []).length = min (A.getD r []).length (B.getD r []).length := by
  unfold matAdd
  have hr : r < (List.zipWith (fun ra rb => List.zipWith (fun x y => x + y) ra rb) A B).length := by
    rw [List.length_zipWith]; omega
  rw [List.getD_eq_getElem _ _ hr, List.getElem_zipWith, List.length_zipWith,
    List.getD_eq_getElem A _ hrA, List.getD_eq_getElem B _ hrB]

/-- C1: in both split-category workflows the assembled primary matrix is the
elementwise sum of the per-category layers: at every in-range (r, c) the
entry of X equals the sum over the stored layers of their entry at (r, c). -/
theorem sum_correctness :
    (∀ (s u : AnnData) (all : List String) (out : Assembled),
      s.WF → u.WF → lamannoAssemble s u all = Except.ok out →
      ∀ r c : Nat, r < all.length → c < out.var_names.length →
        matEntry out.X r c = (out.layers.map (fun l => matEntry l.2 r c)).sum) ∧
    (∀ (n a m : AnnData) (all : List String) (out : Assembled),
      n.WF → a.WF → m.WF → nacAssemble n a m all = Except.ok out →
      ∀ r c : Nat, r < all.length → c < out.var_names.length →
        matEntry out.X r c = (out.layers.map (fun l => matEntry l.2 r c)).sum) := by
  constructor
  · intro s u all out hs hu hok r c hr hc
    unfold lamannoAssemble at hok
    by_cases hv : (alignCategory s all).var_names = (alignCategory u all).var_names
    · rw [if_pos hv] at hok
      cases hok
      simp only [List.map_cons, List.map_nil, List.sum_cons, List.sum_nil, add_zero]
      have hc' : c < s.var_names.length := hc
      have hrS : r < (alignCategory s all).X.length := by
        rw [alignCategory_X_length]; exact hr
      have hrU : r < (alignCategory u all).X.length := by
        rw [alignCategory_X_length]; exact hr
      have hcS : c < ((alignCategory s all).X.getD r []).length := by
        rw [aligned_row_length s all r hs hr]; exact hc'
      have hcU : c < ((alignCategory u all).X.getD r []).length := by
        rw [aligned_row_length u all r hu hr]
        have : s.var_names.length = u.var_names.length := by
          have := congrArg List.length hv
          simpa [alignCategory_var] using this
        omega
      rw [matAdd_entry _ _ r c hrS hrU hcS hcU]
      omega
    · rw [if_neg hv] at hok
      cases hok
  · intro n a m all out hn ha hm hok r c hr hc
    unfold nacAssemble at hok
    by_cases h1 : (alignCategory n all).var_names = (alignCategory a all).var_names
    · by_cases h2 : (alignCategory m all).var_names = (alignCategory a all).var_names
      · rw [if_pos h1, if_pos h2] at hok
        cases hok
        simp only [List.map_cons, List.map_nil, List.sum_cons, List.sum_nil, add_zero]
        have hc' : c < n.var_names.length := hc
        have h1l : n.var_names.length = a.var_names.length := by
          have := congrArg List.length h1
          simpa [alignCategory_var] using this
        have h2l : m.var_names.length = a.var_names.length := by
          have := congrArg List.length h2
          simpa [alignCategory_var] using this
        have hrN : r < (alignCategory n all).X.length := by
          rw [alignCategory_X_length]; exact hr
        have hrA : r < (alignCategory a all).X.length := by
          rw [alignCategory_X_length]; exact hr
        have hrM : r < (alignCategory m all).X.length := by
          rw [alignCategory_X_length]; exact hr
        have hcN : c < ((alignCategory n all).X.getD r []).length := by
          rw [aligned_row_length n all r hn hr]; exact hc'
        have hcA : c < ((alignCategory a all).X.getD r []).length := by
          rw [aligned_row_length a all r ha hr]; omega
        have hcM : c < ((alignCategory m all).X.getD r []).length := by
          rw [aligned_row_length m all r hm hr]; omega
        have hrNA : r < (matAdd (alignCategory n all).X (alignCategory a all).X).length := by
          unfold matAdd
          rw [List.length_zipWith]; omega
        have hcNA : c <
            ((matAdd (alignCategory n all).X (alignCategory a all).X).getD r []).length := by
          rw [matAdd_row_length _ _ r hrN hrA]; omega
        rw [matAdd_entry _ _ r c hrNA hrM hcNA hcM, matAdd_entry _ _ r c hrN hrA hcN hcA]
        omega
      · rw [if_pos h1, if_neg h2] at hok
        cases hok
    · rw [if_neg h1] at hok
      cases hok

theorem sum_correctness_witness :
    matEntry [[1], [2], [1]] 1 0 =
      ((([("unspliced", [[0], [1], [1]]), ("spliced", [[1], [1], [0]])]).map
        (fun l => matEntry l.2 1 0)).sum) ∧
    matEntry [[5], [5], [5]] 0 0 =
      ((([("nascent", [[5], [0], [0]]), ("ambiguous", [[0], [5], [0]]),
        ("mature", [[0], [0], [5]])]).map (fun l => matEntry l.2 0 0)).sum) :=
  ⟨sum_correctness.1 ⟨["x", "y"], ["g"], [[1], [1]]⟩ ⟨["y", "z"], ["g"], [[1], [1]]⟩
      ["x", "y", "z"]
      ⟨["x", "y", "z"], ["g"], [[1], [2], [1]],
        [("unspliced", [[0], [1], [1]]), ("spliced", [[1], [1], [0]])]⟩
      (by constructor <;> decide) (by constructor <;> decide) rfl 1 0 (by decide) (by decide),
   sum_correctness.2 ⟨["a"], ["g"], [[5]]⟩ ⟨["b"], ["g"], [[5]]⟩ ⟨["c"], ["g"], [[5]]⟩
      ["a", "b", "c"]
      ⟨["a", "b", "c"], ["g"], [[5], [5], [5]],
        [("nascent", [[5], [0], [0]]), ("ambiguous", [[0], [5], [0]]),
         ("mature", [[0], [0], [5]])]⟩
      (by constructor <;> decide) (by constructor <;> decide) (by constructor <;> decide)
      rfl 0 0 (by decide) (by decide)⟩

lemma missingOf_eq_nil (all : List String) (x : AnnData)
    (hcov : ∀ b ∈ all, b ∈ x.obs_names) : missingOf all x = [] := by
  unfold missingOf
  rw [List.filter_eq_nil_iff]
  intro b hb
  simp [hcov b hb]

/-- C9: in the nac workflow all three categories are loaded against the same
barcode side file, so their row-identifier sequences coincide; relative to
any admissible union enumeration every missing list is empty and every
complement table has zero rows, making the zero-fill path vacuous. -/
theorem nac_zero_fill_vacuous (m1 m2 m3 : Mtx) (bs fs : List String)
    (a1 a2 a3 : AnnData) (all : List String)
    (h1 : mtx_to_adata m1 bs fs = Except.ok a1)
    (h2 : mtx_to_adata m2 bs fs = Except.ok a2)
    (h3 : mtx_to_adata m3 bs fs = Except.ok a3)
    (hall : isUnionEnum all [a1.obs_names, a2.obs_names, a3.obs_names]) :
    a1.obs_names = a2.obs_names ∧ a2.obs_names = a3.obs_names ∧
    missingOf all a1 = [] ∧ missingOf all a2 = [] ∧ missingOf all a3 = [] ∧
    (adMissing (missingOf all a1) a1).X.length = 0 ∧
    (adMissing (missingOf all a2) a2).X.length = 0 ∧
    (adMissing (missingOf all a3) a3).X.length = 0 := by
  have e1 : a1.obs_names = bs := (mtx_to_adata_ok_shape m1 bs fs a1 h1).1
  have e2 : a2.obs_names = bs := (mtx_to_adata_ok_shape m2 bs fs a2 h2).1
  have e3 : a3.obs_names = bs := (mtx_to_adata_ok_shape m3 bs fs a3 h3).1
  have hcov : ∀ x : AnnData, x.obs_names = bs → ∀ b ∈ all, b ∈ x.obs_names := by
    intro x hx b hb
    rcases hall.2.2 b hb with ⟨p, hp, hbp⟩
    rw [hx]
    simp only [List.mem_cons, List.not_mem_nil] at hp
    rcases hp with h | h | h | h
    · rw [h, e1] at hbp; exact hbp
    · rw [h, e2] at hbp; exact hbp
    · rw [h, e3] at hbp; exact hbp
    · cases h
  have n1 := missingOf_eq_nil all a1 (hcov a1 e1)
  have n2 := missingOf_eq_nil all a2 (hcov a2 e2)
  have n3 := missingOf_eq_nil all a3 (hcov a3 e3)
  refine ⟨e1.trans e2.symm, e2.trans e3.symm, n1, n2, n3, ?_, ?_, ?_⟩
  · simp [adMissing, n1]
  · simp [adMissing, n2]
  · simp [adMissing, n3]

theorem nac_zero_fill_vacuous_witness :
    missingOf ["b1", "b2"] ⟨["b1", "b2"], ["g"], mtxDense ⟨2, 1, [(0, 0, 3)]⟩⟩ = [] ∧
    (adMissing (missingOf ["b1", "b2"] ⟨["b1", "b2"], ["g"], mtxDense ⟨2, 1, [(0, 0, 3)]⟩⟩)
      ⟨["b1", "b2"], ["g"], mtxDense ⟨2, 1, [(0, 0, 3)]⟩⟩).X.length = 0 :=
  ⟨(nac_zero_fill_vacuous ⟨2, 1, [(0, 0, 3)]⟩ ⟨2, 1, [(0, 1, 4)]⟩ ⟨2, 1, []⟩ ["b1", "b2"] ["g"]
      ⟨["b1", "b2"], ["g"], mtxDense ⟨2, 1, [(0, 0, 3)]⟩⟩
      ⟨["b1", "b2"], ["g"], mtxDense ⟨2, 1, [(0, 1, 4)]⟩⟩
      ⟨["b1", "b2"], ["g"], mtxDense ⟨2, 1, []⟩⟩
      ["b1", "b2"] rfl rfl rfl (by decide)).2.2.1,
   (nac_zero_fill_vacuous ⟨2, 1, [(0, 0, 3)]⟩ ⟨2, 1, [(0, 1, 4)]⟩ ⟨2, 1, []⟩ ["b1", "b2"] ["g"]
      ⟨["b1", "b2"], ["g"], mtxDense ⟨2, 1, [(0, 0, 3)]⟩⟩
      ⟨["b1", "b2"], ["g"], mtxDense ⟨2, 1, [(0, 1, 4)]⟩⟩
      ⟨["b1", "b2"], ["g"], mtxDense ⟨2, 1, []⟩⟩
      ["b1", "b2"] rfl rfl rfl (by decide)).2.2.2.2.2.1⟩

lemma aligned_row_by_label (x : AnnData) (all : List String) (b : String)
    (hx : x.WF) (hb : b ∈ all) :
    (alignCategory x all).X.getD (all.indexOf b) [] =
      if b ∈ x.obs_names then x.X.getD (x.obs_names.indexOf b) []
      else List.replicate x.var_names.length 0 := by
  have hlt : all.indexOf b < all.length := List.indexOf_lt_length.mpr hb
  rw [aligned_X_getD x all _ hlt]
  have hgb : all.getD (all.indexOf b) "" = b := by
    rw [List.getD_eq_getElem _ _ hlt]
    exact List.getElem_indexOf hlt
  rw [hgb]
  by_cases hmem : b ∈ x.obs_names
  · rw [if_pos hmem]
    exact lookupRow_concat_mem x _ b hx.1 hmem
  · rw [if_neg hmem]
    exact lookupRow_concat_missing x all b hx.1 hb hmem

lemma matAdd_row (A B : List (List Int)) (r : Nat)
    (hrA : r < A.length) (hrB : r < B.length) :
    (matAdd A B).getD r [] =
      List.zipWith (fun x y => x + y) (A.getD r []) (B.getD r []) := by
  unfold matAdd
  have hr : r < (List.zipWith (fun ra rb => List.zipWith (fun x y => x + y) ra rb) A B).length := by
    rw [List.length_zipWith]; omega
  rw [List.getD_eq_getElem _ _ hr, List.getElem_zipWith,
    List.getD_eq_getElem A _ hrA, List.getD_eq_getElem B _ hrB]

lemma aligned_row_enum_stable (x : AnnData) (all1 all2 : List String) (b : String)
    (hx : x.WF) (hb1 : b ∈ all1) (hb2 : b ∈ all2) :
    (alignCategory x all1).X.getD (all1.indexOf b) [] =
      (alignCategory x all2).X.getD (all2.indexOf b) [] := by
  rw [aligned_row_by_label x all1 b hx hb1, aligned_row_by_label x all2 b hx hb2]

/-- C7 counterexample: one fixed pair of input tables and two admissible
enumerations of the same barcode union (CPython set iteration order differs
between processes because string hashing is salted) give two different
AssembledMatrix values: the row-identifier sequences and the layer matrices
differ, so run-to-run output identity fails as stated. -/
theorem run_determinism_counterexample :
    isUnionEnum ["x", "y", "z"] [["y", "z"], ["x", "y"]] ∧
    isUnionEnum ["z", "y", "x"] [["y", "z"], ["x", "y"]] ∧
    lamannoAssemble ⟨["x", "y"], ["g"], [[1], [1]]⟩ ⟨["y", "z"], ["g"], [[1], [1]]⟩
      ["x", "y", "z"] =
      Except.ok ⟨["x", "y", "z"], ["g"], [[1], [2], [1]],
        [("unspliced", [[0], [1], [1]]), ("spliced", [[1], [1], [0]])]⟩ ∧
    lamannoAssemble ⟨["x", "y"], ["g"], [[1], [1]]⟩ ⟨["y", "z"], ["g"], [[1], [1]]⟩
      ["z", "y", "x"] =
      Except.ok ⟨["z", "y", "x"], ["g"], [[1], [2], [1]],
        [("unspliced", [[1], [1], [0]]), ("spliced", [[0], [1], [1]])]⟩ ∧
    (⟨["x", "y", "z"], ["g"], [[1], [2], [1]],
        [("unspliced", [[0], [1], [1]]), ("spliced", [[1], [1], [0]])]⟩ : Assembled) ≠
      ⟨["z", "y", "x"], ["g"], [[1], [2], [1]],
        [("unspliced", [[1], [1], [0]]), ("spliced", [[0], [1], [1]])]⟩ :=
  ⟨by decide, by decide, rfl, rfl, by decide⟩

/-- C7 (amended): the assembly is a pure function of the loaded tables plus
the materialized union enumeration, so runs that enumerate the barcode-set
union in the same order produce identical outputs; runs whose enumerations
differ produce outputs identical up to the row permutation relating the two
enumerations: same column identifiers, same layer names, same barcode set,
and for every barcode the same primary-matrix row and per-layer rows. -/
theorem determinism_up_to_row_order :
    (∀ (s u : AnnData) (all1 all2 : List String) (out1 out2 : Assembled),
      s.WF → u.WF →
      isUnionEnum all1 [u.obs_names, s.obs_names] →
      isUnionEnum all2 [u.obs_names, s.obs_names] →
      lamannoAssemble s u all1 = Except.ok out1 →
      lamannoAssemble s u all2 = Except.ok out2 →
      out1.var_names = out2.var_names ∧
      out1.layers.map Prod.fst = out2.layers.map Prod.fst ∧
      (∀ b, b ∈ out1.obs_names ↔ b ∈ out2.obs_names) ∧
      (∀ b ∈ all1, out1.X.getD (all1.indexOf b) [] = out2.X.getD (all2.indexOf b) []) ∧
      (∀ b ∈ all1, ∀ i : Nat,
        (out1.layers.getD i ("", [])).1 = (out2.layers.getD i ("", [])).1 ∧
        (out1.layers.getD i ("", [])).2.getD (all1.indexOf b) [] =
          (out2.layers.getD i ("", [])).2.getD (all2.indexOf b) [])) ∧
    (∀ (n a m : AnnData) (all1 all2 : List String) (out1 out2 : Assembled),
      n.WF → a.WF → m.WF →
      isUnionEnum all1 [n.obs_names, m.obs_names, a.obs_names] →
      isUnionEnum all2 [n.obs_names, m.obs_names, a.obs_names] →
      nacAssemble n a m all1 = Except.ok out1 →
      nacAssemble n a m all2 = Except.ok out2 →
      out1.var_names = out2.var_names ∧
      out1.layers.map Prod.fst = out2.layers.map Prod.fst ∧
      (∀ b, b ∈ out1.obs_names ↔ b ∈ out2.obs_names) ∧
      (∀ b ∈ all1, out1.X.getD (all1.indexOf b) [] = out2.X.getD (all2.indexOf b) []) ∧
      (∀ b ∈ all1, ∀ i : Nat,
        (out1.layers.getD i ("", [])).1 = (out2.layers.getD i ("", [])).1 ∧
        (out1.layers.getD i ("", [])).2.getD (all1.indexOf b) [] =
          (out2.layers.getD i ("", [])).2.getD (all2.indexOf b) [])) := by
  have hmem2 : ∀ (all1 all2 : List String) (parts : List (List String)),
      isUnionEnum all1 parts → isUnionEnum all2 parts → ∀ b, b ∈ all1 ↔ b ∈ all2 := by
    intro all1 all2 parts he1 he2 b
    constructor
    · intro hb
      rcases he1.2.2 b hb with ⟨p, hp, hbp⟩
      exact he2.2.1 p hp b hbp
    · intro hb
      rcases he2.2.2 b hb with ⟨p, hp, hbp⟩
      exact he1.2.1 p hp b hbp
  constructor
  · intro s u all1 all2 out1 out2 hs hu he1 he2 h1 h2
    unfold lamannoAssemble at h1 h2
    by_cases hv : s.var_names = u.var_names
    · rw [if_pos (show (alignCategory s all1).var_names = (alignCategory u all1).var_names
        from hv)] at h1
      rw [if_pos (show (alignCategory s all2).var_names = (alignCategory u all2).var_names
        from hv)] at h2
      cases h1
      cases h2
      have hiff := hmem2 all1 all2 [u.obs_names, s.obs_names] he1 he2
      refine ⟨rfl, rfl, hiff, ?_, ?_⟩
      · intro b hb1
        have hb2 : b ∈ all2 := (hiff b).mp hb1
        have i1 : all1.indexOf b < all1.length := List.indexOf_lt_length.mpr hb1
        have i2 : all2.indexOf b < all2.length := List.indexOf_lt_length.mpr hb2
        simp only
        rw [matAdd_row _ _ _ (by rw [alignCategory_X_length]; exact i1)
          (by rw [alignCategory_X_length]; exact i1)]
        rw [matAdd_row _ _ _ (by rw [alignCategory_X_length]; exact i2)
          (by rw [alignCategory_X_length]; exact i2)]
        rw [aligned_row_enum_stable s all1 all2 b hs hb1 hb2,
          aligned_row_enum_stable u all1 all2 b hu hb1 hb2]
      · intro b hb1 i
        have hb2 : b ∈ all2 := (hiff b).mp hb1
        rcases i with _ | _ | i
        · exact ⟨rfl, aligned_row_enum_stable u all1 all2 b hu hb1 hb2⟩
        · exact ⟨rfl, aligned_row_enum_stable s all1 all2 b hs hb1 hb2⟩
        · constructor
          · rw [List.getD_eq_default _ _ (by simp), List.getD_eq_default _ _ (by simp)]
          · rw [List.getD_eq_default _ _ (by simp), List.getD_eq_default _ _ (by simp)]
    · rw [if_neg (show ¬ (alignCategory s all1).var_names = (alignCategory u all1).var_names
        from hv)] at h1
      cases h1
  · intro n a m all1 all2 out1 out2 hn ha hm he1 he2 h1 h2
    unfold nacAssemble at h1 h2
    by_cases hv1 : n.var_names = a.var_names
    · by_cases hv2 : m.var_names = a.var_names
      · rw [if_pos (show (alignCategory n all1).var_names = (alignCategory a all1).var_names
          from hv1), if_pos (show (alignCategory m all1).var_names =
          (alignCategory a all1).var_names from hv2)] at h1
        rw [if_pos (show (alignCategory n all2).var_names = (alignCategory a all2).var_names
          from hv1), if_pos (show (alignCategory m all2).var_names =
          (alignCategory a all2).var_names from hv2)] at h2
        cases h1
        cases h2
        have hiff := hmem2 all1 all2 [n.obs_names, m.obs_names, a.obs_names] he1 he2
        refine ⟨rfl, rfl, hiff, ?_, ?_⟩
        · intro b hb1
          have hb2 : b ∈ all2 := (hiff b).mp hb1
          have i1 : all1.indexOf b < all1.length := List.indexOf_lt_length.mpr hb1
          have i2 : all2.indexOf b < all2.length := List.indexOf_lt_length.mpr hb2
          have hNA1 : (matAdd (alignCategory n all1).X (alignCategory a all1).X).length =
              all1.length := by
            unfold matAdd
            rw [List.length_zipWith, alignCategory_X_length, alignCategory_X_length]
            omega
          have hNA2 : (matAdd (alignCategory n all2).X (alignCategory a all2).X).length =
              all2.length := by
            unfold matAdd
            rw [List.length_zipWith, alignCategory_X_length, alignCategory_X_length]
            omega
          simp only
          rw [matAdd_row (matAdd (alignCategory n all1).X (alignCategory a all1).X)
            (alignCategory m all1).X (all1.indexOf b) (by rw [hNA1]; exact i1)
            (by rw [alignCategory_X_length]; exact i1)]
          rw [matAdd_row (matAdd (alignCategory n all2).X (alignCategory a all2).X)
            (alignCategory m all2).X (all2.indexOf b) (by rw [hNA2]; exact i2)
            (by rw [alignCategory_X_length]; exact i2)]
          rw [matAdd_row (alignCategory n all1).X (alignCategory a all1).X (all1.indexOf b)
            (by rw [alignCategory_X_length]; exact i1)
            (by rw [alignCategory_X_length]; exact i1)]
          rw [matAdd_row (alignCategory n all2).X (alignCategory a all2).X (all2.indexOf b)
            (by rw [alignCategory_X_length]; exact i2)
            (by rw [alignCategory_X_length]; exact i2)]
          rw [aligned_row_enum_stable n all1 all2 b hn hb1 hb2,
            aligned_row_enum_stable a all1 all2 b ha hb1 hb2,
            aligned_row_enum_stable m all1 all2 b hm hb1 hb2]
        · intro b hb1 i
          have hb2 : b ∈ all2 := (hiff b).mp hb1
          rcases i with _ | _ | _ | i
          · exact ⟨rfl, aligned_row_enum_stable n all1 all2 b hn hb1 hb2⟩
          · exact ⟨rfl, aligned_row_enum_stable a all1 all2 b ha hb1 hb2⟩
          · exact ⟨rfl, aligned_row_enum_stable m all1 all2 b hm hb1 hb2⟩
          · constructor
            · rw [List.getD_eq_default _ _ (by simp), List.getD_eq_default _ _ (by simp)]
            · rw [List.getD_eq_default _ _ (by simp), List.getD_eq_default _ _ (by simp)]
      · rw [if_pos (show (alignCategory n all1).var_names = (alignCategory a all1).var_names
          from hv1), if_neg (show ¬ (alignCategory m all1).var_names =
          (alignCategory a all1).var_names from hv2)] at h1
        cases h1
    · rw [if_neg (show ¬ (alignCategory n all1).var_names = (alignCategory a all1).var_names
        from hv1)] at h1
      cases h1

theorem determinism_up_to_row_order_witness :
    ([[1], [2], [1]] : List (List Int)).getD (["x", "y", "z"].indexOf "y") [] =
      ([[1], [2], [1]] : List (List Int)).getD (["z", "y", "x"].indexOf "y") [] :=
  (determinism_up_to_row_order.1 ⟨["x", "y"], ["g"], [[1], [1]]⟩
    ⟨["y", "z"], ["g"], [[1], [1]]⟩ ["x", "y", "z"] ["z", "y", "x"]
    ⟨["x", "y", "z"], ["g"], [[1], [2], [1]],
      [("unspliced", [[0], [1], [1]]), ("spliced", [[1], [1], [0]])]⟩
    ⟨["z", "y", "x"], ["g"], [[1], [2], [1]],
      [("unspliced", [[1], [1], [0]]), ("spliced", [[0], [1], [1]])]⟩
    (by constructor <;> decide) (by constructor <;> decide)
    (by decide) (by decide) rfl rfl).2.2.2.1 "y" (by decide)

/-- Version-suffix stripping from _add_metadata: pandas splits each gene id
on the literal dot and keeps element 0, the prefix before the first dot. -/
def stripVersion (s : String) : String :=
  (s.splitOn ".").headD ""

/-- Lookup in the transcript-to-gene table: drop_duplicates keeps the first
row per gene id, then a left join attaches the symbol or leaves it absent. -/
def lookupSymbol (t2g : List (String × String)) (g : String) : Option String :=
  (t2g.find? (fun p => p.1 == g)).map (fun p => p.2)

/-- Decimal digit character, as produced by Python str() on 0..9. -/
def digitChar (d : Nat) : Char :=
  match d with
  | 0 => '0' | 1 => '1' | 2 => '2' | 3 => '3' | 4 => '4'
  | 5 => '5' | 6 => '6' | 7 => '7' | 8 => '8' | _ => '9'

/-- Little-endian decimal digits, with a fuel argument so the definition
reduces by iota; the fuel is always taken larger than the number. -/
def toDigitsRevAux : Nat → Nat → List Nat
  | _, 0 => []
  | n, fuel + 1 => if n < 10 then [n] else (n % 10) :: toDigitsRevAux (n / 10) fuel

/-- Little-endian decimal digits of a natural number. -/
def toDigitsRev (n : Nat) : List Nat :=
  toDigitsRevAux n (n + 1)

/-- Decimal string of a natural number, the value Python str() returns for
the nonnegative counters used during uniquification. -/
def natToDec (n : Nat) : String :=
  String.mk ((toDigitsRev n).reverse.map digitChar)

/-- Candidate name tried by var_names_make_unique: value, join char, counter. -/
def mkCand (v : String) (k : Nat) : String :=
  v ++ "-" ++ natToDec k

def fromDigitsRev (ds : List Nat) : Nat :=
  ds.foldr (fun d acc => d + 10 * acc) 0

lemma toDigitsRevAux_spec : ∀ (fuel n : Nat), n < fuel →
    fromDigitsRev (toDigitsRevAux n fuel) = n ∧ ∀ d ∈ toDigitsRevAux n fuel, d < 10 := by
  intro fuel
  induction fuel with
  | zero =>
    intro n h
    omega
  | succ fuel ih =>
    intro n h
    rw [toDigitsRevAux]
    by_cases h10 : n < 10
    · rw [if_pos h10]
      constructor
      · simp [fromDigitsRev]
      · intro d hd
        simp at hd
        omega
    · rw [if_neg h10]
      have hdiv : n / 10 < fuel := by omega
      obtain ⟨ih1, ih2⟩ := ih (n / 10) hdiv
      constructor
      · simp only [fromDigitsRev, List.foldr] at ih1 ⊢
        rw [ih1]
        omega
      · intro d hd
        rcases List.mem_cons.mp hd with h1 | h2
        · omega
        · exact ih2 d h2

lemma fromDigitsRev_toDigitsRev (n : Nat) : fromDigitsRev (toDigitsRev n) = n :=
  (toDigitsRevAux_spec (n + 1) n (by omega)).1

lemma toDigitsRev_lt_ten (n : Nat) : ∀ d ∈ toDigitsRev n, d < 10 :=
  (toDigitsRevAux_spec (n + 1) n (by omega)).2

lemma digitChar_inj : ∀ d1 < 10, ∀ d2 < 10, digitChar d1 = digitChar d2 → d1 = d2 := by
  decide

lemma map_digitChar_inj : ∀ l1 l2 : List Nat, (∀ d ∈ l1, d < 10) → (∀ d ∈ l2, d < 10) →
    l1.map digitChar = l2.map digitChar → l1 = l2 := by
  intro l1
  induction l1 with
  | nil =>
    intro l2 _ _ h
    cases l2 with
    | nil => rfl
    | cons b t => simp at h
  | cons a t ih =>
    intro l2 h1 h2 h
    cases l2 with
    | nil => simp at h
    | cons b t2 =>
      simp only [List.map_cons, List.cons.injEq] at h
      have hab : a = b :=
        digitChar_inj a (h1 a (by simp)) b (h2 b (by simp)) h.1
      have ht : t = t2 := ih t2 (fun d hd => h1 d (by simp [hd]))
        (fun d hd => h2 d (by simp [hd])) h.2
      rw [hab, ht]

lemma natToDec_data_inj (m n : Nat) (h : (natToDec m).data = (natToDec n).data) : m = n := by
  unfold natToDec at h
  simp only at h
  have hmap : (toDigitsRev m).reverse.map digitChar = (toDigitsRev n).reverse.map digitChar := h
  have hrev : (toDigitsRev m).reverse = (toDigitsRev n).reverse :=
    map_digitChar_inj _ _ (fun d hd => toDigitsRev_lt_ten m d (List.mem_reverse.mp hd))
      (fun d hd => toDigitsRev_lt_ten n d (List.mem_reverse.mp hd)) hmap
  have hdig : toDigitsRev m = toDigitsRev n := List.reverse_injective hrev
  rw [← fromDigitsRev_toDigitsRev m, ← fromDigitsRev_toDigitsRev n, hdig]

lemma mkCand_inj (v : String) (k1 k2 : Nat) (h : mkCand v k1 = mkCand v k2) : k1 = k2 := by
  unfold mkCand at h
  have hd := congrArg String.data h
  simp only [String.data_append] at hd
  have hnat := List.append_cancel_left hd
  exact natToDec_data_inj k1 k2 hnat

lemma exists_free_cand (v : String) (S : List String) (c : Nat) :
    ∃ i, i ≤ S.length ∧ mkCand v (c + 1 + i) ∉ S := by
  by_contra hcon
  push_neg at hcon
  have hinj : Function.Injective (fun i : Fin (S.length + 1) => mkCand v (c + 1 + i.1)) := by
    intro i j hij
    have := mkCand_inj v (c + 1 + i.1) (c + 1 + j.1) hij
    exact Fin.ext (by omega)
  have hsub : Finset.image (fun i : Fin (S.length + 1) => mkCand v (c + 1 + i.1))
      Finset.univ ⊆ S.toFinset := by
    intro x hx
    rw [Finset.mem_image] at hx
    rcases hx with ⟨i, _, rfl⟩
    rw [List.mem_toFinset]
    exact hcon i.1 (by omega)
  have hcard1 : (Finset.image (fun i : Fin (S.length + 1) => mkCand v (c + 1 + i.1))
      Finset.univ).card = S.length + 1 := by
    rw [Finset.card_image_of_injective _ hinj, Finset.card_univ, Fintype.card_fin]
  have hcard2 := Finset.card_le_card hsub
  have hcard3 := List.toFinset_card_le S
  omega

/-- One step of the while loop of var_names_make_unique: starting from the
stored counter value c, increment and test candidates v-(c+1), v-(c+2), ...
against the current name set until a free one appears; the returned value is
the counter at which the loop stopped.  The fuel argument bounds the search
and is always passed as the set size plus one, which the pigeonhole argument
shows is enough. -/
def findFree (v : String) (S : List String) : Nat → Nat → Nat
  | c, 0 => c + 1
  | c, fuel + 1 => if mkCand v (c + 1) ∈ S then findFree v S (c + 1) fuel else c + 1

lemma findFree_not_mem (v : String) (S : List String) :
    ∀ (fuel c : Nat), (∃ i, i < fuel ∧ mkCand v (c + 1 + i) ∉ S) →
      mkCand v (findFree v S c fuel) ∉ S := by
  intro fuel
  induction fuel with
  | zero =>
    rintro c ⟨i, hi, _⟩
    omega
  | succ fuel ih =>
    rintro c ⟨i, hi, hfree⟩
    by_cases hmem : mkCand v (c + 1) ∈ S
    · rw [findFree, if_pos hmem]
      apply ih
      have hine : i ≠ 0 := by
        rintro rfl
        exact hfree (by simpa using hmem)
      refine ⟨i - 1, by omega, ?_⟩
      have harith : c + 1 + 1 + (i - 1) = c + 1 + i := by omega
      rw [harith]
      exact hfree
    · rw [findFree, if_neg hmem]
      exact hmem

lemma findFree_spec (v : String) (S : List String) (c : Nat) :
    mkCand v (findFree v S c (S.length + 1)) ∉ S := by
  apply findFree_not_mem
  rcases exists_free_cand v S c with ⟨i, hi, hfree⟩
  exact ⟨i, by omega, hfree⟩

/-- Embedding of anndata var_names_make_unique (make_index_unique with join
char -): S is the growing set of taken names, initialized to all original
values; counter stores per original value the last counter tried; seen
collects first occurrences, so membership in seen marks a duplicate
position exactly as the duplicated(keep=first) mask does.  A duplicate gets
the first free candidate name, which is inserted into S; a first occurrence
keeps its name. -/
def makeUniqueAux (S : List String) (counter : String → Nat) (seen : List String) :
    List String → List String
  | [] => []
  | v :: rest =>
    if v ∈ seen then
      mkCand v (findFree v S (counter v) (S.length + 1)) ::
        makeUniqueAux (mkCand v (findFree v S (counter v) (S.length + 1)) :: S)
          (fun w => if w = v then findFree v S (counter v) (S.length + 1) else counter w)
          seen rest
    else
      v :: makeUniqueAux S counter (v :: seen) rest

/-- Embedding of adata.var_names_make_unique on an index list. -/
def make_index_unique (names : List String) : List String :=
  makeUniqueAux names (fun _ => 0) [] names

lemma make_index_unique_example :
    make_index_unique ["a", "a", "a-1", "a"] = ["a", "a-2", "a-1", "a-3"] := by
  decide

lemma makeUniqueAux_spec :
    ∀ (input S : List String) (counter : String → Nat) (seen : List String),
      (∀ b ∈ input, b ∈ S) → (∀ b ∈ seen, b ∈ S) →
      (makeUniqueAux S counter seen input).Nodup ∧
      (∀ w ∈ seen, w ∉ makeUniqueAux S counter seen input) ∧
      (∀ nm ∈ makeUniqueAux S counter seen input, nm ∈ input ∨ nm ∉ S) := by
  intro input
  induction input with
  | nil =>
    intro S counter seen _ _
    refine ⟨List.nodup_nil, ?_, ?_⟩ <;> simp [makeUniqueAux]
  | cons v rest ih =>
    intro S counter seen hin hseen
    by_cases hv : v ∈ seen
    · simp only [makeUniqueAux]
      rw [if_pos hv]
      have hnmS : mkCand v (findFree v S (counter v) (S.length + 1)) ∉ S :=
        findFree_spec v S (counter v)
      have hin' : ∀ b ∈ rest, b ∈ mkCand v (findFree v S (counter v) (S.length + 1)) :: S :=
        fun b hb => List.mem_cons_of_mem _ (hin b (List.mem_cons_of_mem _ hb))
      have hseen' : ∀ b ∈ seen, b ∈ mkCand v (findFree v S (counter v) (S.length + 1)) :: S :=
        fun b hb => List.mem_cons_of_mem _ (hseen b hb)
      obtain ⟨ihnd, ihseen, ihmem⟩ := ih
        (mkCand v (findFree v S (counter v) (S.length + 1)) :: S)
        (fun w => if w = v then findFree v S (counter v) (S.length + 1) else counter w)
        seen hin' hseen'
      have hnmR : mkCand v (findFree v S (counter v) (S.length + 1)) ∉
          makeUniqueAux (mkCand v (findFree v S (counter v) (S.length + 1)) :: S)
            (fun w => if w = v then findFree v S (counter v) (S.length + 1) else counter w)
            seen rest := by
        intro hmem
        rcases ihmem _ hmem with hrest | hnotS
        · exact hnmS (hin _ (List.mem_cons_of_mem _ hrest))
        · exact hnotS (List.mem_cons_self _ _)
      refine ⟨List.nodup_cons.mpr ⟨hnmR, ihnd⟩, ?_, ?_⟩
      · intro w hw hmem
        rcases List.mem_cons.mp hmem with heq | hwR
        · rw [heq] at hw
          exact hnmS (hseen _ hw)
        · exact ihseen _ hw hwR
      · intro x hx
        rcases List.mem_cons.mp hx with heq | hxR
        · right
          rw [heq]
          exact hnmS
        · rcases ihmem x hxR with hrest | hnotS
          · left
            exact List.mem_cons_of_mem _ hrest
          · right
            exact fun hxS => hnotS (List.mem_cons_of_mem _ hxS)
    · simp only [makeUniqueAux]
      rw [if_neg hv]
      have hvS : v ∈ S := hin v (List.mem_cons_self _ _)
      have hseen' : ∀ b ∈ v :: seen, b ∈ S := by
        intro b hb
        rcases List.mem_cons.mp hb with heq | hb2
        · rw [heq]
          exact hvS
        · exact hseen b hb2
      have hin' : ∀ b ∈ rest, b ∈ S := fun b hb => hin b (List.mem_cons_of_mem _ hb)
      obtain ⟨ihnd, ihseen, ihmem⟩ := ih S counter (v :: seen) hin' hseen'
      have hvR : v ∉ makeUniqueAux S counter (v :: seen) rest :=
        ihseen v (List.mem_cons_self _ _)
      refine ⟨List.nodup_cons.mpr ⟨hvR, ihnd⟩, ?_, ?_⟩
      · intro w hw hmem
        rcases List.mem_cons.mp hmem with heq | hwR
        · rw [heq] at hw
          exact hv hw
        · exact ihseen w (List.mem_cons_of_mem _ hw) hwR
      · intro x hx
        rcases List.mem_cons.mp hx with heq | hxR
        · left
          rw [heq]
          exact List.mem_cons_self _ _
        · rcases ihmem x hxR with hrest | hnS
          · left
            exact List.mem_cons_of_mem _ hrest
          · right
            exact hnS

/-- Var metadata after _add_metadata: the sanitized index, the left-joined
gene symbols, and the gene_versions column holding the original ids.  The
obs side (a constant sample column) carries no information relevant here
and is omitted. -/
structure VarTable where
  index : List String
  gene_symbol : List (Option String)
  gene_versions : List String
deriving DecidableEq, Repr

/-- Embedding of the var-side effect of _add_metadata: join symbols onto the
original index, store the original index as gene_versions, replace the index
by its version-stripped form, then make it unique. -/
def add_metadata_var (names : List String) (t2g : List (String × String)) : VarTable :=
  ⟨make_index_unique (names.map stripVersion),
   names.map (lookupSymbol t2g),
   names⟩

/-- C10: the metadata-annotation step stores every original column
identifier in the gene_versions column, replaces each identifier by its
prefix before the first dot, and then uniquifies, so the final
column-identifier sequence is duplicate-free for every input, also when two
stripped identifiers collide. -/
theorem gene_id_sanitization (names : List String) (t2g : List (String × String)) :
    (add_metadata_var names t2g).gene_versions = names ∧
    (add_metadata_var names t2g).index = make_index_unique (names.map stripVersion) ∧
    (add_metadata_var names t2g).index.Nodup := by
  refine ⟨rfl, rfl, ?_⟩
  exact (makeUniqueAux_spec (names.map stripVersion) (names.map stripVersion) (fun _ => 0) []
    (fun b hb => hb) (by simp)).1
